import Mathlib

/-!
Shallow embedding of the nested-structure merger/comparator from
`archai/common/utils.py`: `deep_update` (recursive in-place merge of one
nested mapping into another) and `deep_comp` (recursive structural
comparison that unwraps field-bearing objects into their attribute
mappings).

Python values relevant to these two functions are modelled by `Node`:
  * `Node.map m`   — a `dict` (an insertion-ordered association list);
  * `Node.obj c f` — a generic object of class `c` exposing `__dict__ = f`
                     (a `dict` has no `__dict__`, scalars have none either);
  * `Node.scalar s` — a scalar leaf (int, float, str, bool, None).
Keys are strings (Python allows any hashable key; the claims only need a
fixed key type with decidable equality).

Python raises (TypeError / AttributeError) when `deep_update` recurses into
a target value that is not a mutable mapping; fallible operations therefore
return `Option`, `none` standing for a raised exception.
-/

set_option autoImplicit false
set_option linter.unreachableTactic false
set_option linter.unusedTactic false
set_option linter.unusedVariables false

namespace ArchaiUtils

/-- The value denoted by a non-NaN numeric scalar: a finite number or one
of the two infinities.  Finite floats are represented by the (dyadic)
rational they denote, so `+0.0` and `-0.0` are a single value — exactly
the classes Python `==` cannot tell apart. -/
inductive PyNum where
  | fin : Rat → PyNum
  | posInf : PyNum
  | negInf : PyNum
deriving DecidableEq, Repr

/-- A Python float: NaN (any payload — all NaNs behave alike under `==`),
or a non-NaN value. -/
inductive PyFloat where
  | nan : PyFloat
  | num : PyNum → PyFloat
deriving DecidableEq, Repr

/-- Scalar leaf values: Python ints, floats, strings, booleans and
`None`. -/
inductive Scalar where
  | int : Int → Scalar
  | float : PyFloat → Scalar
  | str : String → Scalar
  | bool : Bool → Scalar
  | pynone : Scalar
deriving DecidableEq, Repr

/-- The numeric value of a scalar, when it has one: Python compares `int`,
`bool` (a subclass of `int`: `True` is `1`, `False` is `0`) and `float`
across types by numeric value.  NaN has no value (`nan == x` is `False`
for every `x`, itself included); strings and `None` are not numeric. -/
def Scalar.numVal : Scalar → Option PyNum
  | .int m => some (.fin (m : Rat))
  | .bool b => some (.fin (if b then 1 else 0))
  | .float .nan => none
  | .float (.num v) => some v
  | _ => none

/-- Equality of optional numeric values: both present and equal. -/
def numEq : Option PyNum → Option PyNum → Bool
  | some x, some y => x == y
  | _, _ => false

/-- Python `==` on scalar leaves: strings compare by value, `None` equals
only itself, and numeric scalars (int, bool, float) compare by numeric
value across kinds — so `1 == 1.0 == True`, while `float('nan')` is
unequal to everything, itself included.  Every other combination is
unequal. -/
def Scalar.eqPy (a b : Scalar) : Bool :=
  match a, b with
  | .str s, .str t => s == t
  | .pynone, .pynone => true
  | a, b => numEq a.numVal b.numVal

/-- Whether a scalar is the float NaN, the one scalar on which Python `==`
is not reflexive. -/
def Scalar.isNaN : Scalar → Bool
  | .float .nan => true
  | _ => false

/-- A Python value as seen by `deep_update` / `deep_comp`: a dict, a
field-bearing object (class name plus `__dict__`), or a scalar leaf. -/
inductive Node where
  | map : List (String × Node) → Node
  | obj : String → List (String × Node) → Node
  | scalar : Scalar → Node
deriving Repr

/-- The entry list of a dict (insertion order is the list order, as in
Python 3.7+ dicts). -/
abbrev Entries := List (String × Node)

/-- `k in d` / `d[k]` for a dict given by its entries: the value at the
first entry whose key is `k`. -/
def lookup (k : String) : Entries → Option Node
  | [] => none
  | (k', v) :: rest => if k' = k then some v else lookup k rest

/-- The keys of an entry list, in order. -/
def keysOf (m : Entries) : List String :=
  m.map Prod.fst

/-- `k in d` for a dict. -/
def hasKey (k : String) (m : Entries) : Bool :=
  (lookup k m).isSome

/-- `d[k] = v` on a dict: an existing key keeps its position and gets the
new value, a fresh key is appended at the end (Python dict semantics). -/
def setKey (k : String) (v : Node) : Entries → Entries
  | [] => [(k, v)]
  | (k', v') :: rest => if k' = k then (k, v) :: rest else (k', v') :: setKey k v rest

/-- `d.get(k, dflt)`: only dicts support `.get`; on any other value Python
raises `AttributeError`, modelled by `none`. -/
def dGet (d : Node) (k : String) (dflt : Node) : Option Node :=
  match d with
  | .map m => some ((lookup k m).getD dflt)
  | _ => none

/-- `d[k] = v`: only dicts support item assignment here (string keys);
on a scalar or an object Python raises `TypeError`, modelled by `none`. -/
def dSet (d : Node) (k : String) (v : Node) : Option Node :=
  match d with
  | .map m => some (.map (setKey k v m))
  | _ => none

/-- `deep_update(d, u, map_type=dict)` from `archai/common/utils.py`:

    for k, v in u.items():
        if isinstance(v, Mapping):
            d[k] = deep_update(d.get(k, map_type()), v, map_type)
        else:
            d[k] = v
    return d

The source `u` is always a mapping at every call site (the recursive call
passes `v` only after `isinstance(v, Mapping)`), so it is embedded as its
entry list; the target starts as whatever `d.get(k, {})` returned, so it is
an arbitrary `Node`.  A raised exception is `none`. -/
def deep_update : Node → Entries → Option Node
  | d, [] => some d
  | d, (k, Node.map vm) :: rest =>
    match dGet d k (Node.map []) with
    | none => none
    | some cur =>
      match deep_update cur vm with
      | none => none
      | some r =>
        match dSet d k r with
        | none => none
        | some d1 => deep_update d1 rest
  | d, (k, Node.obj c f) :: rest =>
    match dSet d k (Node.obj c f) with
    | none => none
    | some d1 => deep_update d1 rest
  | d, (k, Node.scalar s) :: rest =>
    match dSet d k (Node.scalar s) with
    | none => none
    | some d1 => deep_update d1 rest
termination_by _ u => sizeOf u

/-- A value found by `lookup` is structurally smaller than the entry list
it came from (used for the termination of the comparison functions). -/
theorem sizeOf_lookup {k : String} : ∀ {m : Entries} {v : Node},
    lookup k m = some v → sizeOf v < sizeOf m := by
  intro m
  induction m with
  | nil => intro v h; simp [lookup] at h
  | cons p rest ih =>
    obtain ⟨k', v'⟩ := p
    intro v h
    by_cases hk : k' = k
    · simp [lookup, hk] at h
      subst h
      simp
      omega
    · simp [lookup, hk] at h
      have := ih h
      simp
      omega

/-- Each string of the list once (a later duplicate wins, which is
immaterial: only membership in the result is ever used). -/
def dedupKeys : List String → List String
  | [] => []
  | k :: ks => if k ∈ ks then dedupKeys ks else k :: dedupKeys ks

/-- `set().union(o1.keys(), o2.keys())`: the set of keys of the two entry
lists, each key once (Python iterates a set in unspecified order; any
order with the right membership is a faithful model, since the loop's
result does not depend on the order). -/
def unionKeys (m1 m2 : Entries) : List String :=
  dedupKeys (keysOf m1 ++ keysOf m2)

mutual

/-- Python `==` on `Node` values, as reached from `deep_comp`'s final
fall-through.  Scalars compare by value (`Scalar.eqPy`); two dicts compare
key-by-key with `==` on the values; every cross-kind comparison is `false`
(`dict.__eq__` with a non-dict returns `NotImplemented`, and default object
equality is identity, so two distinct nodes of different kinds, or two
distinct objects, are unequal). -/
def pyEq : Node → Node → Bool
  | .scalar s, .scalar t => Scalar.eqPy s t
  | .map m1, .map m2 => pyEqKeys (unionKeys m1 m2) m1 m2
  | _, _ => false
termination_by a b => (sizeOf a + sizeOf b, 0)
decreasing_by
  all_goals
    first
      | (apply Prod.Lex.right
         simp only [List.cons.sizeOf_spec]
         omega)
      | (apply Prod.Lex.left
         have a1 := sizeOf_lookup h1
         have a2 := sizeOf_lookup h2
         omega)
      | (apply Prod.Lex.left
         simp only [Node.map.sizeOf_spec, Node.obj.sizeOf_spec]
         omega)

/-- Helper for `pyEq` on two dicts: every key of the union must be present
in both and the values must be `==`-equal. -/
def pyEqKeys : List String → Entries → Entries → Bool
  | [], _, _ => true
  | k :: ks, m1, m2 =>
    match h1 : lookup k m1, h2 : lookup k m2 with
    | some v1, some v2 => pyEq v1 v2 && pyEqKeys ks m1 m2
    | _, _ => false
termination_by ks m1 m2 => (sizeOf m1 + sizeOf m2, sizeOf ks)
decreasing_by
  all_goals
    first
      | (apply Prod.Lex.right
         simp only [List.cons.sizeOf_spec]
         omega)
      | (apply Prod.Lex.left
         have a1 := sizeOf_lookup h1
         have a2 := sizeOf_lookup h2
         omega)
      | (apply Prod.Lex.left
         simp only [Node.map.sizeOf_spec, Node.obj.sizeOf_spec]
         omega)

end

mutual

/-- `deep_comp(o1, o2)` from `archai/common/utils.py`:

    o1d = getattr(o1, '__dict__', None)
    o2d = getattr(o2, '__dict__', None)
    if o1d is not None and o2d is not None:
        o1, o2 = o1.__dict__, o2.__dict__
    if o1 is not None and o2 is not None:
        if isinstance(o1, dict) and isinstance(o2, dict):
            for k in set().union(o1.keys(), o2.keys()):
                if k in o1 and k in o2:
                    if not deep_comp(o1[k], o2[k]):
                        return False
                else:
                    return False # some key missing
            return True
    return o1 == o2

Only generic objects have a `__dict__` (dicts and scalars do not), so both
sides are unwrapped exactly when both are `Node.obj`; the unwrapped values
are both dicts, so the key-union branch then runs.  The `is not None` guard
never changes the result: `None` is not a dict, so when either side is
`None` the dict branch could not fire anyway and the code falls through to
`o1 == o2` either way. -/
def deep_comp : Node → Node → Bool
  | .obj _ f1, .obj _ f2 => compKeys (unionKeys f1 f2) f1 f2
  | .map m1, .map m2 => compKeys (unionKeys m1 m2) m1 m2
  | a, b => pyEq a b
termination_by a b => (sizeOf a + sizeOf b, 0)
decreasing_by
  all_goals
    first
      | (apply Prod.Lex.right
         simp only [List.cons.sizeOf_spec]
         omega)
      | (apply Prod.Lex.left
         have a1 := sizeOf_lookup h1
         have a2 := sizeOf_lookup h2
         omega)
      | (apply Prod.Lex.left
         simp only [Node.map.sizeOf_spec, Node.obj.sizeOf_spec]
         omega)

/-- The key-union loop of `deep_comp` on two dicts: `False` as soon as a
key of the union is missing on either side, otherwise the conjunction of
the recursive comparisons. -/
def compKeys : List String → Entries → Entries → Bool
  | [], _, _ => true
  | k :: ks, m1, m2 =>
    match h1 : lookup k m1, h2 : lookup k m2 with
    | some v1, some v2 => deep_comp v1 v2 && compKeys ks m1 m2
    | _, _ => false
termination_by ks m1 m2 => (sizeOf m1 + sizeOf m2, sizeOf ks)
decreasing_by
  all_goals
    first
      | (apply Prod.Lex.right
         simp only [List.cons.sizeOf_spec]
         omega)
      | (apply Prod.Lex.left
         have a1 := sizeOf_lookup h1
         have a2 := sizeOf_lookup h2
         omega)
      | (apply Prod.Lex.left
         simp only [Node.map.sizeOf_spec, Node.obj.sizeOf_spec]
         omega)

end

/-- No key occurs twice in the entry list (every Python dict satisfies
this; it is a hypothesis wherever a claim quantifies over dicts, since the
association-list model can also express key lists no dict can have). -/
def noDupKeys : Entries → Bool
  | [] => true
  | (k, _) :: rest => if k ∈ keysOf rest then false else noDupKeys rest

mutual

/-- A node is a faithful image of a Python value for the purposes of
`deep_update`: every dict reachable through dict values has no duplicate
keys.  Object fields and scalars are unconstrained (`deep_update` never
looks inside an object). -/
def srcWF : Node → Bool
  | Node.map m => noDupKeys m && srcWFEntries m
  | _ => true
termination_by v => sizeOf v
decreasing_by
  all_goals first
    | (simp; omega)
    | simp

/-- `srcWF` for every value of an entry list. -/
def srcWFEntries : Entries → Bool
  | [] => true
  | (_, v) :: rest => srcWF v && srcWFEntries rest
termination_by m => sizeOf m
decreasing_by
  all_goals first
    | (simp; omega)
    | simp

end

/-- Whether a value exposes an attribute mapping (`getattr(o, '__dict__',
None) is not None`): true exactly for generic objects — a dict has no
`__dict__` and neither has a scalar. -/
def isObj : Node → Bool
  | .obj _ _ => true
  | _ => false

mutual

/-- No scalar leaf reachable anywhere in the node (through dict values and
object fields alike) is the float NaN — the one leaf on which Python `==`
is not reflexive. -/
def noNaN : Node → Bool
  | Node.map m => noNaNEntries m
  | Node.obj _ f => noNaNEntries f
  | Node.scalar sc => ! sc.isNaN
termination_by v => sizeOf v
decreasing_by
  all_goals first
    | (simp; omega)
    | simp

/-- `noNaN` for every value of an entry list. -/
def noNaNEntries : Entries → Bool
  | [] => true
  | (_, v) :: rest => noNaN v && noNaNEntries rest
termination_by m => sizeOf m
decreasing_by
  all_goals first
    | (simp; omega)
    | simp

end

/-! ### Basic lemmas about the dict primitives -/

theorem keysOf_nil : keysOf [] = [] := rfl

theorem keysOf_cons (p : String × Node) (m : Entries) :
    keysOf (p :: m) = p.1 :: keysOf m := rfl

theorem lookup_nil (k : String) : lookup k [] = none := rfl

theorem lookup_cons (k k' : String) (v : Node) (m : Entries) :
    lookup k ((k', v) :: m) = if k' = k then some v else lookup k m := rfl

theorem setKey_nil (k : String) (v : Node) : setKey k v [] = [(k, v)] := rfl

theorem setKey_cons (k k' : String) (v v' : Node) (m : Entries) :
    setKey k v ((k', v') :: m) =
      if k' = k then (k, v) :: m else (k', v') :: setKey k v m := rfl

theorem lookup_setKey_self (k : String) (v : Node) (m : Entries) :
    lookup k (setKey k v m) = some v := by
  induction m with
  | nil => simp [setKey_nil, lookup_cons, lookup_nil]
  | cons p rest ih =>
    obtain ⟨k', v'⟩ := p
    by_cases hk : k' = k
    · simp [setKey_cons, hk, lookup_cons]
    · simp [setKey_cons, hk, lookup_cons, ih]

theorem lookup_setKey_ne {k k' : String} (v : Node) (m : Entries) (h : k' ≠ k) :
    lookup k' (setKey k v m) = lookup k' m := by
  induction m with
  | nil => simp [setKey_nil, lookup_cons, lookup_nil, Ne.symm h]
  | cons p rest ih =>
    obtain ⟨k'', v''⟩ := p
    by_cases hk : k'' = k
    · subst hk
      simp [setKey_cons, lookup_cons, Ne.symm h]
    · by_cases hk2 : k'' = k'
      · simp [setKey_cons, hk, lookup_cons, hk2, h]
      · simp [setKey_cons, hk, lookup_cons, hk2, ih]

theorem mem_keysOf_iff {k : String} {m : Entries} :
    k ∈ keysOf m ↔ (lookup k m).isSome := by
  induction m with
  | nil => simp [keysOf_nil, lookup_nil]
  | cons p rest ih =>
    obtain ⟨k', v'⟩ := p
    by_cases hk : k' = k
    · simp [keysOf_cons, lookup_cons, hk]
    · simp [keysOf_cons, lookup_cons, hk, ih, Ne.symm hk]

theorem hasKey_iff_mem {k : String} {m : Entries} :
    hasKey k m = true ↔ k ∈ keysOf m := by
  rw [hasKey, mem_keysOf_iff]

theorem lookup_isSome_of_mem {k : String} {m : Entries} (h : k ∈ keysOf m) :
    ∃ v, lookup k m = some v := by
  rw [mem_keysOf_iff] at h
  exact Option.isSome_iff_exists.mp h

theorem keysOf_setKey (k : String) (v : Node) (m : Entries) :
    keysOf (setKey k v m) = if k ∈ keysOf m then keysOf m else keysOf m ++ [k] := by
  induction m with
  | nil => simp [setKey_nil, keysOf_nil, keysOf_cons]
  | cons p rest ih =>
    obtain ⟨k', v'⟩ := p
    by_cases hk : k' = k
    · subst hk
      simp [setKey_cons, keysOf_cons]
    · by_cases hm : k ∈ keysOf rest
      · simp [setKey_cons, hk, keysOf_cons, ih, hm, Ne.symm hk]
      · simp [setKey_cons, hk, keysOf_cons, ih, hm, Ne.symm hk]

theorem mem_keysOf_setKey {k k' : String} {v : Node} {m : Entries} :
    k' ∈ keysOf (setKey k v m) ↔ k' ∈ keysOf m ∨ k' = k := by
  rw [keysOf_setKey]
  by_cases hm : k ∈ keysOf m
  · simp only [hm, if_true]
    constructor
    · exact Or.inl
    · rintro (h | rfl)
      · exact h
      · exact hm
  · simp [hm]

theorem setKey_eq_of_lookup {k : String} {v : Node} {m : Entries}
    (h : lookup k m = some v) : setKey k v m = m := by
  induction m with
  | nil => simp [lookup_nil] at h
  | cons p rest ih =>
    obtain ⟨k', v'⟩ := p
    by_cases hk : k' = k
    · subst hk
      simp [lookup_cons] at h
      simp [setKey_cons, h]
    · simp [lookup_cons, hk] at h
      simp [setKey_cons, hk, ih h]

theorem mem_dedupKeys {k : String} {l : List String} :
    k ∈ dedupKeys l ↔ k ∈ l := by
  induction l with
  | nil => simp [dedupKeys]
  | cons a rest ih =>
    by_cases ha : a ∈ rest
    · simp only [dedupKeys, ha, if_true, ih, List.mem_cons]
      constructor
      · exact Or.inr
      · rintro (rfl | h)
        · exact ha
        · exact h
    · simp [dedupKeys, ha, ih]

theorem mem_unionKeys {k : String} {m1 m2 : Entries} :
    k ∈ unionKeys m1 m2 ↔ k ∈ keysOf m1 ∨ k ∈ keysOf m2 := by
  rw [unionKeys, mem_dedupKeys, List.mem_append]

/-! ### Unfolding lemmas for `deep_update` -/

theorem deep_update_nil (d : Node) : deep_update d [] = some d := by
  simp [deep_update]

theorem deep_update_cons_map (t : Entries) (k : String) (vm rest : Entries) :
    deep_update (.map t) ((k, .map vm) :: rest) =
      match deep_update ((lookup k t).getD (.map [])) vm with
      | none => none
      | some r => deep_update (.map (setKey k r t)) rest := by
  rw [deep_update]
  simp [dGet, dSet]

theorem deep_update_cons_obj (t : Entries) (k c : String) (f rest : Entries) :
    deep_update (.map t) ((k, .obj c f) :: rest) =
      deep_update (.map (setKey k (.obj c f) t)) rest := by
  rw [deep_update]
  simp [dSet]

theorem deep_update_cons_scalar (t : Entries) (k : String) (s : Scalar) (rest : Entries) :
    deep_update (.map t) ((k, .scalar s) :: rest) =
      deep_update (.map (setKey k (.scalar s) t)) rest := by
  rw [deep_update]
  simp [dSet]

theorem deep_update_scalar_cons (s : Scalar) (p : String × Node) (u : Entries) :
    deep_update (.scalar s) (p :: u) = none := by
  obtain ⟨k, v⟩ := p
  cases v <;> (rw [deep_update]; simp [dGet, dSet])

theorem deep_update_obj_cons (c : String) (f : Entries) (p : String × Node) (u : Entries) :
    deep_update (.obj c f) (p :: u) = none := by
  obtain ⟨k, v⟩ := p
  cases v <;> (rw [deep_update]; simp [dGet, dSet])

/-! ### Structural lemmas about `deep_update` on a dict target -/

/-- Merging a mapping source into a dict target yields a dict. -/
theorem deep_update_map_shape : ∀ {u t : Entries} {r : Node},
    deep_update (.map t) u = some r → ∃ r', r = .map r' := by
  intro u
  induction u with
  | nil =>
    intro t r h
    rw [deep_update_nil] at h
    exact ⟨t, (Option.some_inj.mp h).symm⟩
  | cons p rest ih =>
    obtain ⟨k, v⟩ := p
    intro t r h
    cases v with
    | map vm =>
      rw [deep_update_cons_map] at h
      cases h' : deep_update ((lookup k t).getD (.map [])) vm with
      | none => rw [h'] at h; exact absurd h (by simp)
      | some r0 =>
        rw [h'] at h
        exact ih h
    | obj c f =>
      rw [deep_update_cons_obj] at h
      exact ih h
    | scalar s =>
      rw [deep_update_cons_scalar] at h
      exact ih h

/-- A key not named by the source keeps its old value in the target. -/
theorem deep_update_lookup_frame : ∀ {u t r : Entries} {k : String},
    deep_update (.map t) u = some (.map r) → k ∉ keysOf u →
    lookup k r = lookup k t := by
  intro u
  induction u with
  | nil =>
    intro t r k h _
    rw [deep_update_nil] at h
    cases Option.some_inj.mp h
    rfl
  | cons p rest ih =>
    obtain ⟨k0, v⟩ := p
    intro t r k h hk
    rw [keysOf_cons, List.mem_cons] at hk
    push_neg at hk
    obtain ⟨hk0, hrest⟩ := hk
    cases v with
    | map vm =>
      rw [deep_update_cons_map] at h
      cases h' : deep_update ((lookup k0 t).getD (.map [])) vm with
      | none => rw [h'] at h; exact absurd h (by simp)
      | some r0 =>
        rw [h'] at h
        rw [ih h hrest, lookup_setKey_ne _ _ hk0]
    | obj c f =>
      rw [deep_update_cons_obj] at h
      rw [ih h hrest, lookup_setKey_ne _ _ hk0]
    | scalar s =>
      rw [deep_update_cons_scalar] at h
      rw [ih h hrest, lookup_setKey_ne _ _ hk0]

/-- The keys of the merged dict are exactly the old keys together with the
source's keys: `deep_update` adds every source key and removes nothing. -/
theorem deep_update_keys : ∀ {u t r : Entries},
    deep_update (.map t) u = some (.map r) →
    ∀ k, k ∈ keysOf r ↔ (k ∈ keysOf t ∨ k ∈ keysOf u) := by
  intro u
  induction u with
  | nil =>
    intro t r h k
    rw [deep_update_nil] at h
    cases Option.some_inj.mp h
    simp [keysOf_nil]
  | cons p rest ih =>
    obtain ⟨k0, v⟩ := p
    intro t r h k
    have step : ∀ x : Node, deep_update (.map (setKey k0 x t)) rest = some (.map r) →
        (k ∈ keysOf r ↔ (k ∈ keysOf t ∨ k ∈ keysOf ((k0, v) :: rest))) := by
      intro x hs
      rw [ih hs, mem_keysOf_setKey, keysOf_cons, List.mem_cons]
      tauto
    cases v with
    | map vm =>
      rw [deep_update_cons_map] at h
      cases h' : deep_update ((lookup k0 t).getD (.map [])) vm with
      | none => rw [h'] at h; exact absurd h (by simp)
      | some r0 =>
        rw [h'] at h
        exact step r0 h
    | obj c f =>
      rw [deep_update_cons_obj] at h
      exact step _ h
    | scalar s =>
      rw [deep_update_cons_scalar] at h
      exact step _ h

theorem noDupKeys_iff {m : Entries} : noDupKeys m = true ↔ (keysOf m).Nodup := by
  induction m with
  | nil => simp [noDupKeys, keysOf_nil]
  | cons p rest ih =>
    obtain ⟨k, v⟩ := p
    by_cases hk : k ∈ keysOf rest <;> simp [noDupKeys, hk, keysOf_cons, ih]

theorem lookup_eq_none_of_not_mem {k : String} {m : Entries} (h : k ∉ keysOf m) :
    lookup k m = none := by
  cases hl : lookup k m with
  | none => rfl
  | some v => exact absurd (mem_keysOf_iff.mpr (by simp [hl])) h

theorem setKey_not_mem {k : String} {v : Node} {m : Entries} (h : k ∉ keysOf m) :
    setKey k v m = m ++ [(k, v)] := by
  induction m with
  | nil => simp [setKey_nil]
  | cons p rest ih =>
    obtain ⟨k', v'⟩ := p
    rw [keysOf_cons, List.mem_cons] at h
    push_neg at h
    have hne : ¬k' = k := fun hh => h.1 hh.symm
    simp [setKey_cons, hne, ih h.2]

/-- One loop step of `deep_update` on a dict target: the target is updated
at the head key, either with the recursive merge (mapping value) or with
the source value itself (any other value). -/
theorem deep_update_cons_inv {t : Entries} {k0 : String} {v0 : Node}
    {rest : Entries} {R : Node}
    (h : deep_update (.map t) ((k0, v0) :: rest) = some R) :
    ∃ x, deep_update (.map (setKey k0 x t)) rest = some R ∧
      ((∃ vm, v0 = Node.map vm ∧
          deep_update ((lookup k0 t).getD (.map [])) vm = some x) ∨
       ((∀ vm, v0 ≠ Node.map vm) ∧ x = v0)) := by
  cases v0 with
  | map vm =>
    rw [deep_update_cons_map] at h
    cases h' : deep_update ((lookup k0 t).getD (.map [])) vm with
    | none => rw [h'] at h; exact absurd h (by simp)
    | some r0 =>
      rw [h'] at h
      exact ⟨r0, h, Or.inl ⟨vm, rfl, h'⟩⟩
  | obj c f =>
    rw [deep_update_cons_obj] at h
    exact ⟨.obj c f, h, Or.inr ⟨by simp, rfl⟩⟩
  | scalar s =>
    rw [deep_update_cons_scalar] at h
    exact ⟨.scalar s, h, Or.inr ⟨by simp, rfl⟩⟩

/-- Where the source holds a mapping `vm` at `k`, the merged dict holds the
recursive merge of the old value at `k` (the empty dict when `k` was
absent) with `vm`. -/
theorem deep_update_lookup_map_src : ∀ {u t r : Entries} {k : String} {vm : Entries},
    (keysOf u).Nodup → deep_update (.map t) u = some (.map r) →
    lookup k u = some (.map vm) →
    ∃ r', deep_update ((lookup k t).getD (.map [])) vm = some r' ∧
      lookup k r = some r' := by
  intro u
  induction u with
  | nil =>
    intro t r k vm _ _ hl
    simp [lookup_nil] at hl
  | cons p rest ih =>
    obtain ⟨k0, v0⟩ := p
    intro t r k vm hnd h hl
    rw [keysOf_cons, List.nodup_cons] at hnd
    obtain ⟨hk0nr, hndr⟩ := hnd
    obtain ⟨x, hrest, hx⟩ := deep_update_cons_inv h
    rw [lookup_cons] at hl
    by_cases hk : k0 = k
    · subst hk
      rw [if_pos rfl] at hl
      cases hl
      rcases hx with ⟨vm', hv, hm⟩ | ⟨hnm, _⟩
      · cases hv
        refine ⟨x, hm, ?_⟩
        rw [deep_update_lookup_frame hrest hk0nr, lookup_setKey_self]
      · exact absurd rfl (hnm vm)
    · rw [if_neg hk] at hl
      have hres := ih hndr hrest hl
      rwa [lookup_setKey_ne _ _ (fun hh => hk hh.symm)] at hres

/-- Where the source holds a non-mapping value at `k`, the merged dict
holds exactly that value (full replacement). -/
theorem deep_update_lookup_nonmap_src : ∀ {u t r : Entries} {k : String} {v : Node},
    (keysOf u).Nodup → deep_update (.map t) u = some (.map r) →
    lookup k u = some v → (∀ vm : Entries, v ≠ Node.map vm) →
    lookup k r = some v := by
  intro u
  induction u with
  | nil =>
    intro t r k v _ _ hl _
    simp [lookup_nil] at hl
  | cons p rest ih =>
    obtain ⟨k0, v0⟩ := p
    intro t r k v hnd h hl hnm
    rw [keysOf_cons, List.nodup_cons] at hnd
    obtain ⟨hk0nr, hndr⟩ := hnd
    obtain ⟨x, hrest, hx⟩ := deep_update_cons_inv h
    rw [lookup_cons] at hl
    by_cases hk : k0 = k
    · subst hk
      rw [if_pos rfl] at hl
      cases hl
      rcases hx with ⟨vm', hv, _⟩ | ⟨_, hxv⟩
      · exact absurd hv (hnm vm')
      · subst hxv
        rw [deep_update_lookup_frame hrest hk0nr, lookup_setKey_self]
    · rw [if_neg hk] at hl
      exact ih hndr hrest hl hnm

/-! ### Unfolding lemmas for `deep_comp` and `pyEq` -/

theorem compKeys_nil (m1 m2 : Entries) : compKeys [] m1 m2 = true := by
  rw [compKeys]

theorem compKeys_cons_some {k : String} {m1 m2 : Entries} {v1 v2 : Node}
    (ks : List String) (h1 : lookup k m1 = some v1) (h2 : lookup k m2 = some v2) :
    compKeys (k :: ks) m1 m2 = (deep_comp v1 v2 && compKeys ks m1 m2) := by
  rw [compKeys]
  split
  · next w1 w2 heq1 heq2 =>
    rw [h1] at heq1
    rw [h2] at heq2
    cases heq1
    cases heq2
    rfl
  · next hne => exact absurd (hne v1 v2 h1 h2) id

theorem compKeys_cons_none {k : String} {m1 m2 : Entries} (ks : List String)
    (h : lookup k m1 = none ∨ lookup k m2 = none) :
    compKeys (k :: ks) m1 m2 = false := by
  rw [compKeys]
  split
  · next w1 w2 heq1 heq2 =>
    rcases h with h | h
    · rw [h] at heq1; cases heq1
    · rw [h] at heq2; cases heq2
  · rfl

theorem pyEqKeys_nil (m1 m2 : Entries) : pyEqKeys [] m1 m2 = true := by
  rw [pyEqKeys]

theorem pyEqKeys_cons_some {k : String} {m1 m2 : Entries} {v1 v2 : Node}
    (ks : List String) (h1 : lookup k m1 = some v1) (h2 : lookup k m2 = some v2) :
    pyEqKeys (k :: ks) m1 m2 = (pyEq v1 v2 && pyEqKeys ks m1 m2) := by
  rw [pyEqKeys]
  split
  · next w1 w2 heq1 heq2 =>
    rw [h1] at heq1
    rw [h2] at heq2
    cases heq1
    cases heq2
    rfl
  · next hne => exact absurd (hne v1 v2 h1 h2) id

theorem pyEqKeys_cons_none {k : String} {m1 m2 : Entries} (ks : List String)
    (h : lookup k m1 = none ∨ lookup k m2 = none) :
    pyEqKeys (k :: ks) m1 m2 = false := by
  rw [pyEqKeys]
  split
  · next w1 w2 heq1 heq2 =>
    rcases h with h | h
    · rw [h] at heq1; cases heq1
    · rw [h] at heq2; cases heq2
  · rfl

theorem deep_comp_map_map (m1 m2 : Entries) :
    deep_comp (.map m1) (.map m2) = compKeys (unionKeys m1 m2) m1 m2 := by
  rw [deep_comp]

theorem deep_comp_obj_obj (c1 c2 : String) (f1 f2 : Entries) :
    deep_comp (.obj c1 f1) (.obj c2 f2) = compKeys (unionKeys f1 f2) f1 f2 := by
  rw [deep_comp]

theorem deep_comp_scalar_scalar (s t : Scalar) :
    deep_comp (.scalar s) (.scalar t) = pyEq (.scalar s) (.scalar t) := by
  rw [deep_comp] <;> (intros; simp_all)

theorem deep_comp_obj_map (c : String) (f m : Entries) :
    deep_comp (.obj c f) (.map m) = pyEq (.obj c f) (.map m) := by
  rw [deep_comp] <;> (intros; simp_all)

theorem deep_comp_map_obj (c : String) (m f : Entries) :
    deep_comp (.map m) (.obj c f) = pyEq (.map m) (.obj c f) := by
  rw [deep_comp] <;> (intros; simp_all)

theorem deep_comp_obj_scalar (c : String) (f : Entries) (s : Scalar) :
    deep_comp (.obj c f) (.scalar s) = pyEq (.obj c f) (.scalar s) := by
  rw [deep_comp] <;> (intros; simp_all)

theorem deep_comp_scalar_obj (s : Scalar) (c : String) (f : Entries) :
    deep_comp (.scalar s) (.obj c f) = pyEq (.scalar s) (.obj c f) := by
  rw [deep_comp] <;> (intros; simp_all)

theorem deep_comp_map_scalar (m : Entries) (s : Scalar) :
    deep_comp (.map m) (.scalar s) = pyEq (.map m) (.scalar s) := by
  rw [deep_comp] <;> (intros; simp_all)

theorem deep_comp_scalar_map (s : Scalar) (m : Entries) :
    deep_comp (.scalar s) (.map m) = pyEq (.scalar s) (.map m) := by
  rw [deep_comp] <;> (intros; simp_all)

theorem pyEq_scalar (s t : Scalar) :
    pyEq (.scalar s) (.scalar t) = Scalar.eqPy s t := by
  rw [pyEq]

theorem pyEq_map_map (m1 m2 : Entries) :
    pyEq (.map m1) (.map m2) = pyEqKeys (unionKeys m1 m2) m1 m2 := by
  rw [pyEq]

theorem pyEq_obj_map (c : String) (f m : Entries) :
    pyEq (.obj c f) (.map m) = false := by
  rw [pyEq] <;> (intros; simp_all)

theorem pyEq_map_obj (c : String) (m f : Entries) :
    pyEq (.map m) (.obj c f) = false := by
  rw [pyEq] <;> (intros; simp_all)

theorem pyEq_obj_obj (c1 c2 : String) (f1 f2 : Entries) :
    pyEq (.obj c1 f1) (.obj c2 f2) = false := by
  rw [pyEq] <;> (intros; simp_all)

theorem pyEq_obj_scalar (c : String) (f : Entries) (s : Scalar) :
    pyEq (.obj c f) (.scalar s) = false := by
  rw [pyEq] <;> (intros; simp_all)

theorem pyEq_scalar_obj (s : Scalar) (c : String) (f : Entries) :
    pyEq (.scalar s) (.obj c f) = false := by
  rw [pyEq] <;> (intros; simp_all)

theorem pyEq_map_scalar (m : Entries) (s : Scalar) :
    pyEq (.map m) (.scalar s) = false := by
  rw [pyEq] <;> (intros; simp_all)

theorem pyEq_scalar_map (s : Scalar) (m : Entries) :
    pyEq (.scalar s) (.map m) = false := by
  rw [pyEq] <;> (intros; simp_all)

/-! ### Characterizations and algebraic properties of the comparison -/

theorem compKeys_eq_true_iff {ks : List String} {m1 m2 : Entries} :
    compKeys ks m1 m2 = true ↔
      ∀ k ∈ ks, ∃ v1 v2, lookup k m1 = some v1 ∧ lookup k m2 = some v2 ∧
        deep_comp v1 v2 = true := by
  induction ks with
  | nil => simp [compKeys_nil]
  | cons k ks ih =>
    cases h1 : lookup k m1 with
    | none =>
      rw [compKeys_cons_none ks (Or.inl h1)]
      constructor
      · intro h; cases h
      · intro h
        obtain ⟨v1, _, hv1, _, _⟩ := h k (List.mem_cons_self k ks)
        rw [h1] at hv1
        cases hv1
    | some v1 =>
      cases h2 : lookup k m2 with
      | none =>
        rw [compKeys_cons_none ks (Or.inr h2)]
        constructor
        · intro h; cases h
        · intro h
          obtain ⟨_, v2, _, hv2, _⟩ := h k (List.mem_cons_self k ks)
          rw [h2] at hv2
          cases hv2
      | some v2 =>
        rw [compKeys_cons_some ks h1 h2, Bool.and_eq_true, ih]
        constructor
        · rintro ⟨hd, htl⟩ k' hk'
          rcases List.mem_cons.mp hk' with rfl | hk'
          · exact ⟨v1, v2, h1, h2, hd⟩
          · exact htl k' hk'
        · intro h
          refine ⟨?_, fun k' hk' => h k' (List.mem_cons_of_mem _ hk')⟩
          obtain ⟨w1, w2, hw1, hw2, hc⟩ := h k (List.mem_cons_self k ks)
          rw [h1] at hw1
          rw [h2] at hw2
          cases hw1
          cases hw2
          exact hc

theorem pyEqKeys_eq_true_iff {ks : List String} {m1 m2 : Entries} :
    pyEqKeys ks m1 m2 = true ↔
      ∀ k ∈ ks, ∃ v1 v2, lookup k m1 = some v1 ∧ lookup k m2 = some v2 ∧
        pyEq v1 v2 = true := by
  induction ks with
  | nil => simp [pyEqKeys_nil]
  | cons k ks ih =>
    cases h1 : lookup k m1 with
    | none =>
      rw [pyEqKeys_cons_none ks (Or.inl h1)]
      constructor
      · intro h; cases h
      · intro h
        obtain ⟨v1, _, hv1, _, _⟩ := h k (List.mem_cons_self k ks)
        rw [h1] at hv1
        cases hv1
    | some v1 =>
      cases h2 : lookup k m2 with
      | none =>
        rw [pyEqKeys_cons_none ks (Or.inr h2)]
        constructor
        · intro h; cases h
        · intro h
          obtain ⟨_, v2, _, hv2, _⟩ := h k (List.mem_cons_self k ks)
          rw [h2] at hv2
          cases hv2
      | some v2 =>
        rw [pyEqKeys_cons_some ks h1 h2, Bool.and_eq_true, ih]
        constructor
        · rintro ⟨hd, htl⟩ k' hk'
          rcases List.mem_cons.mp hk' with rfl | hk'
          · exact ⟨v1, v2, h1, h2, hd⟩
          · exact htl k' hk'
        · intro h
          refine ⟨?_, fun k' hk' => h k' (List.mem_cons_of_mem _ hk')⟩
          obtain ⟨w1, w2, hw1, hw2, hc⟩ := h k (List.mem_cons_self k ks)
          rw [h1] at hw1
          rw [h2] at hw2
          cases hw1
          cases hw2
          exact hc

theorem beq_comm_eq {A : Type} [BEq A] [LawfulBEq A] (a b : A) :
    (a == b) = (b == a) := by
  by_cases h : a = b
  · subst h
    rfl
  · rw [beq_eq_false_iff_ne.mpr h, beq_eq_false_iff_ne.mpr (Ne.symm h)]

/-- Python `==` is reflexive on every scalar except the float NaN. -/
theorem Scalar.eqPy_refl (s : Scalar) (h : s.isNaN = false) : s.eqPy s = true := by
  cases s with
  | float pf =>
    cases pf with
    | nan => simp [Scalar.isNaN] at h
    | num v => simp [Scalar.eqPy, Scalar.numVal, numEq]
  | int m => simp [Scalar.eqPy, Scalar.numVal, numEq]
  | str a => simp [Scalar.eqPy]
  | bool b => simp [Scalar.eqPy, Scalar.numVal, numEq]
  | pynone => rfl

theorem numEq_symm (x y : Option PyNum) : numEq x y = numEq y x := by
  cases x <;> cases y <;> simp [numEq, beq_comm_eq]

theorem Scalar.eqPy_symm (s t : Scalar) : s.eqPy t = t.eqPy s := by
  have step : ∀ a b : Scalar, a.eqPy b = numEq a.numVal b.numVal →
      b.eqPy a = numEq b.numVal a.numVal → a.eqPy b = b.eqPy a := by
    intro a b h1 h2
    rw [h1, h2]
    exact numEq_symm _ _
  have strStep : ∀ a b : String,
      (Scalar.str a).eqPy (Scalar.str b) = (Scalar.str b).eqPy (Scalar.str a) := by
    intro a b
    show (a == b) = (b == a)
    exact beq_comm_eq a b
  cases s <;> cases t <;>
    first
      | rfl
      | exact step _ _ rfl rfl
      | exact strStep _ _

theorem sizeOf_node_pos (a : Node) : 0 < sizeOf a := by
  cases a <;> simp <;> omega

theorem noNaN_map (m : Entries) : noNaN (.map m) = noNaNEntries m := by
  rw [noNaN]

theorem noNaN_obj (c : String) (f : Entries) : noNaN (.obj c f) = noNaNEntries f := by
  rw [noNaN]

theorem noNaN_scalar (sc : Scalar) : noNaN (.scalar sc) = ! sc.isNaN := by
  rw [noNaN]

theorem noNaNEntries_nil : noNaNEntries [] = true := by
  rw [noNaNEntries]

theorem noNaNEntries_cons (k : String) (v : Node) (rest : Entries) :
    noNaNEntries ((k, v) :: rest) = (noNaN v && noNaNEntries rest) := by
  rw [noNaNEntries]

theorem noNaN_of_lookup : ∀ {m : Entries} {k : String} {v : Node},
    noNaNEntries m = true → lookup k m = some v → noNaN v = true := by
  intro m
  induction m with
  | nil =>
    intro k v _ hl
    simp [lookup_nil] at hl
  | cons p rest ih =>
    obtain ⟨k0, v0⟩ := p
    intro k v hn hl
    rw [noNaNEntries_cons, Bool.and_eq_true] at hn
    rw [lookup_cons] at hl
    by_cases hk : k0 = k
    · rw [if_pos hk] at hl
      cases hl
      exact hn.1
    · rw [if_neg hk] at hl
      exact ih hn.2 hl

/-- A node with no NaN leaf compares equal to itself, by strong induction
on size.  (The restriction is necessary: `nan == nan` is `False` in
Python, so `deep_comp` is not reflexive at a NaN leaf.) -/
theorem deep_comp_refl_of_le : ∀ (n : Nat) (a : Node), sizeOf a ≤ n →
    noNaN a = true → deep_comp a a = true := by
  intro n
  induction n with
  | zero =>
    intro a h
    exact absurd h (by have := sizeOf_node_pos a; omega)
  | succ n0 ih =>
    intro a h hn
    cases a with
    | scalar s =>
      rw [noNaN_scalar, Bool.not_eq_eq_eq_not, Bool.not_true] at hn
      rw [deep_comp_scalar_scalar, pyEq_scalar]
      exact Scalar.eqPy_refl s hn
    | map m =>
      rw [noNaN_map] at hn
      rw [deep_comp_map_map, compKeys_eq_true_iff]
      intro k hk
      have hk' : k ∈ keysOf m := by
        rcases mem_unionKeys.mp hk with h' | h' <;> exact h'
      obtain ⟨v, hv⟩ := lookup_isSome_of_mem hk'
      refine ⟨v, v, hv, hv, ?_⟩
      have hs := sizeOf_lookup hv
      have hsz : sizeOf (Node.map m) = 1 + sizeOf m := by simp
      exact ih v (by omega) (noNaN_of_lookup hn hv)
    | obj c f =>
      rw [noNaN_obj] at hn
      rw [deep_comp_obj_obj, compKeys_eq_true_iff]
      intro k hk
      have hk' : k ∈ keysOf f := by
        rcases mem_unionKeys.mp hk with h' | h' <;> exact h'
      obtain ⟨v, hv⟩ := lookup_isSome_of_mem hk'
      refine ⟨v, v, hv, hv, ?_⟩
      have hs := sizeOf_lookup hv
      have hsz : sizeOf (Node.obj c f) = 1 + sizeOf c + sizeOf f := by simp
      exact ih v (by omega) (noNaN_of_lookup hn hv)

theorem deep_comp_refl (a : Node) (hn : noNaN a = true) : deep_comp a a = true :=
  deep_comp_refl_of_le (sizeOf a) a le_rfl hn

/-- Python `==` on nodes is symmetric, by strong induction on size. -/
theorem pyEq_symm_of_le : ∀ (n : Nat) (a b : Node), sizeOf a + sizeOf b ≤ n →
    pyEq a b = pyEq b a := by
  intro n
  induction n with
  | zero =>
    intro a b h
    exact absurd h (by have := sizeOf_node_pos a; have := sizeOf_node_pos b; omega)
  | succ n0 ih =>
    have dir : ∀ {ma mb : Entries},
        sizeOf (Node.map ma) + sizeOf (Node.map mb) ≤ n0 + 1 →
        pyEqKeys (unionKeys ma mb) ma mb = true →
        pyEqKeys (unionKeys mb ma) mb ma = true := by
      intro ma mb hsz hfwd
      rw [pyEqKeys_eq_true_iff] at hfwd ⊢
      intro k hk
      have hk' : k ∈ unionKeys ma mb := by
        rw [mem_unionKeys] at hk ⊢
        tauto
      obtain ⟨v1, v2, h1, h2, hp⟩ := hfwd k hk'
      refine ⟨v2, v1, h2, h1, ?_⟩
      have s1 := sizeOf_lookup h1
      have s2 := sizeOf_lookup h2
      have hma : sizeOf (Node.map ma) = 1 + sizeOf ma := by simp
      have hmb : sizeOf (Node.map mb) = 1 + sizeOf mb := by simp
      rw [← ih v1 v2 (by omega)]
      exact hp
    intro a b h
    cases a with
    | map m1 =>
      cases b with
      | map m2 =>
        rw [pyEq_map_map, pyEq_map_map]
        refine Bool.eq_iff_iff.mpr ⟨fun h' => dir h h', fun h' => dir (by omega) h'⟩
      | obj c f => rw [pyEq_map_obj, pyEq_obj_map]
      | scalar s => rw [pyEq_map_scalar, pyEq_scalar_map]
    | obj c f =>
      cases b with
      | map m => rw [pyEq_obj_map, pyEq_map_obj]
      | obj c2 f2 => rw [pyEq_obj_obj, pyEq_obj_obj]
      | scalar s => rw [pyEq_obj_scalar, pyEq_scalar_obj]
    | scalar s =>
      cases b with
      | map m => rw [pyEq_scalar_map, pyEq_map_scalar]
      | obj c f => rw [pyEq_scalar_obj, pyEq_obj_scalar]
      | scalar t => rw [pyEq_scalar, pyEq_scalar, Scalar.eqPy_symm]

theorem pyEq_symm (a b : Node) : pyEq a b = pyEq b a :=
  pyEq_symm_of_le (sizeOf a + sizeOf b) a b le_rfl

/-- The deep comparison is symmetric, by strong induction on size: the
key-union branch is symmetric in the two dicts, and the fall-through is
symmetric because Python `==` is. -/
theorem deep_comp_symm_of_le : ∀ (n : Nat) (a b : Node), sizeOf a + sizeOf b ≤ n →
    deep_comp a b = deep_comp b a := by
  intro n
  induction n with
  | zero =>
    intro a b h
    exact absurd h (by have := sizeOf_node_pos a; have := sizeOf_node_pos b; omega)
  | succ n0 ih =>
    have dir : ∀ {ma mb : Entries},
        2 + sizeOf ma + sizeOf mb ≤ n0 + 1 →
        compKeys (unionKeys ma mb) ma mb = true →
        compKeys (unionKeys mb ma) mb ma = true := by
      intro ma mb hsz hfwd
      rw [compKeys_eq_true_iff] at hfwd ⊢
      intro k hk
      have hk' : k ∈ unionKeys ma mb := by
        rw [mem_unionKeys] at hk ⊢
        tauto
      obtain ⟨v1, v2, h1, h2, hp⟩ := hfwd k hk'
      refine ⟨v2, v1, h2, h1, ?_⟩
      have s1 := sizeOf_lookup h1
      have s2 := sizeOf_lookup h2
      rw [← ih v1 v2 (by omega)]
      exact hp
    intro a b h
    cases a with
    | map m1 =>
      cases b with
      | map m2 =>
        rw [deep_comp_map_map, deep_comp_map_map]
        have hsz : sizeOf (Node.map m1) = 1 + sizeOf m1 ∧
            sizeOf (Node.map m2) = 1 + sizeOf m2 := by constructor <;> simp
        refine Bool.eq_iff_iff.mpr
          ⟨fun h' => dir (by omega) h', fun h' => dir (by omega) h'⟩
      | obj c f => rw [deep_comp_map_obj, deep_comp_obj_map, pyEq_map_obj, pyEq_obj_map]
      | scalar s =>
        rw [deep_comp_map_scalar, deep_comp_scalar_map, pyEq_map_scalar, pyEq_scalar_map]
    | obj c f =>
      cases b with
      | map m => rw [deep_comp_obj_map, deep_comp_map_obj, pyEq_obj_map, pyEq_map_obj]
      | obj c2 f2 =>
        rw [deep_comp_obj_obj, deep_comp_obj_obj]
        have hsz : sizeOf (Node.obj c f) = 1 + sizeOf c + sizeOf f ∧
            sizeOf (Node.obj c2 f2) = 1 + sizeOf c2 + sizeOf f2 := by constructor <;> simp
        have hc : 0 < sizeOf c ∧ 0 < sizeOf c2 := by
          constructor <;>
            first
              | (simp [sizeOf, String._sizeOf_1]; omega)
              | simp [sizeOf, String._sizeOf_1]
        refine Bool.eq_iff_iff.mpr
          ⟨fun h' => dir (by omega) h', fun h' => dir (by omega) h'⟩
      | scalar s =>
        rw [deep_comp_obj_scalar, deep_comp_scalar_obj, pyEq_obj_scalar, pyEq_scalar_obj]
    | scalar s =>
      cases b with
      | map m =>
        rw [deep_comp_scalar_map, deep_comp_map_scalar, pyEq_scalar_map, pyEq_map_scalar]
      | obj c f =>
        rw [deep_comp_scalar_obj, deep_comp_obj_scalar, pyEq_scalar_obj, pyEq_obj_scalar]
      | scalar t => rw [deep_comp_scalar_scalar, deep_comp_scalar_scalar, pyEq_scalar,
          pyEq_scalar, Scalar.eqPy_symm]

theorem deep_comp_symm (a b : Node) : deep_comp a b = deep_comp b a :=
  deep_comp_symm_of_le (sizeOf a + sizeOf b) a b le_rfl

/-! ### Well-formed sources: identity merge and absorption -/

theorem srcWF_map (m : Entries) :
    srcWF (.map m) = (noDupKeys m && srcWFEntries m) := by
  rw [srcWF]

theorem srcWF_obj (c : String) (f : Entries) : srcWF (.obj c f) = true := by
  rw [srcWF] <;> (intros; simp_all)

theorem srcWF_scalar (s : Scalar) : srcWF (.scalar s) = true := by
  rw [srcWF] <;> (intros; simp_all)

theorem srcWFEntries_nil : srcWFEntries [] = true := by
  rw [srcWFEntries]

theorem srcWFEntries_cons (k : String) (v : Node) (rest : Entries) :
    srcWFEntries ((k, v) :: rest) = (srcWF v && srcWFEntries rest) := by
  rw [srcWFEntries]

theorem noDupKeys_cons_iff {k : String} {v : Node} {rest : Entries} :
    noDupKeys ((k, v) :: rest) = true ↔ k ∉ keysOf rest ∧ noDupKeys rest = true := by
  by_cases h : k ∈ keysOf rest <;> simp [noDupKeys, h]

theorem keysOf_append (m1 m2 : Entries) :
    keysOf (m1 ++ m2) = keysOf m1 ++ keysOf m2 := by
  simp [keysOf]

theorem sizeOf_entries_pos (s : Entries) : 0 < sizeOf s := by
  cases s <;> simp <;> omega

theorem sizeOf_head_tail (k0 : String) (v0 : Node) (rest : Entries) :
    sizeOf v0 < sizeOf ((k0, v0) :: rest) ∧ sizeOf rest < sizeOf ((k0, v0) :: rest) := by
  simp
  omega

theorem sizeOf_map_node (vm : Entries) : sizeOf (Node.map vm) = 1 + sizeOf vm := by
  simp

/-- Merging a well-formed source into a dict that shares no keys with it
appends the source's entries verbatim: the merge is a per-entry copy, and
a copy of a value is the value itself in the value model. -/
theorem deep_update_fresh : ∀ (n : Nat) (s d : Entries), sizeOf s ≤ n →
    noDupKeys s = true → srcWFEntries s = true →
    (∀ k ∈ keysOf s, k ∉ keysOf d) →
    deep_update (.map d) s = some (.map (d ++ s)) := by
  intro n
  induction n with
  | zero =>
    intro s d h
    exact absurd h (by have := sizeOf_entries_pos s; omega)
  | succ n0 ih =>
    intro s d h hnd hwf hdisj
    cases s with
    | nil => simp [deep_update_nil]
    | cons p rest =>
      obtain ⟨k0, v0⟩ := p
      obtain ⟨hk0, hndr⟩ := noDupKeys_cons_iff.mp hnd
      rw [srcWFEntries_cons, Bool.and_eq_true] at hwf
      obtain ⟨hwf0, hwfr⟩ := hwf
      have hk0d : k0 ∉ keysOf d :=
        hdisj k0 (by rw [keysOf_cons]; exact List.mem_cons_self _ _)
      obtain ⟨hszv, hszr⟩ := sizeOf_head_tail k0 v0 rest
      have hrest : ∀ x : Node,
          deep_update (.map (d ++ [(k0, x)])) rest = some (.map ((d ++ [(k0, x)]) ++ rest)) := by
        intro x
        apply ih rest (d ++ [(k0, x)]) (by omega) hndr hwfr
        intro k hk
        rw [keysOf_append, List.mem_append]
        push_neg
        refine ⟨hdisj k (by rw [keysOf_cons]; exact List.mem_cons_of_mem _ hk), ?_⟩
        rw [keysOf_cons, keysOf_nil]
        simp only [List.mem_singleton]
        intro hkk
        rw [hkk] at hk
        exact hk0 hk
      have happ : ∀ x : Node, (d ++ [(k0, x)]) ++ rest = d ++ (k0, x) :: rest := by
        intro x
        simp
      cases v0 with
      | map vm =>
        rw [deep_update_cons_map, lookup_eq_none_of_not_mem hk0d]
        rw [srcWF_map, Bool.and_eq_true] at hwf0
        have hszm := sizeOf_map_node vm
        have hin : deep_update (.map []) vm = some (.map vm) := by
          have := ih vm [] (by omega) hwf0.1 hwf0.2
            (by intro k _; rw [keysOf_nil]; exact List.not_mem_nil k)
          rwa [List.nil_append] at this
        simp only [Option.getD_none, hin]
        rw [setKey_not_mem hk0d, hrest (Node.map vm), happ]
      | obj c f =>
        rw [deep_update_cons_obj, setKey_not_mem hk0d, hrest (Node.obj c f), happ]
      | scalar sc =>
        rw [deep_update_cons_scalar, setKey_not_mem hk0d, hrest (Node.scalar sc), happ]

/-- `deep_update({}, S)` returns `S` itself (as a value) for a well-formed
nested mapping `S`. -/
theorem deep_update_empty_eq {s : Entries} (h : srcWF (.map s) = true) :
    deep_update (.map []) s = some (.map s) := by
  rw [srcWF_map, Bool.and_eq_true] at h
  have := deep_update_fresh (sizeOf s) s [] le_rfl h.1 h.2
    (by intro k _; rw [keysOf_nil]; exact List.not_mem_nil k)
  rwa [List.nil_append] at this

/-- Merging the same well-formed source a second time does not change the
result of the first merge (the absorption behind idempotence). -/
theorem deep_update_absorb : ∀ (n : Nat) (s : Entries) (x y : Node), sizeOf s ≤ n →
    noDupKeys s = true → srcWFEntries s = true →
    deep_update x s = some y → deep_update y s = some y := by
  intro n
  induction n with
  | zero =>
    intro s x y h
    exact absurd h (by have := sizeOf_entries_pos s; omega)
  | succ n0 ih =>
    intro s x y h hnd hwf hup
    cases s with
    | nil =>
      rw [deep_update_nil] at hup
      cases hup
      exact deep_update_nil x
    | cons p rest =>
      obtain ⟨k0, v0⟩ := p
      obtain ⟨hk0, hndr⟩ := noDupKeys_cons_iff.mp hnd
      rw [srcWFEntries_cons, Bool.and_eq_true] at hwf
      obtain ⟨hwf0, hwfr⟩ := hwf
      obtain ⟨hszv, hszr⟩ := sizeOf_head_tail k0 v0 rest
      cases x with
      | scalar sc => rw [deep_update_scalar_cons] at hup; cases hup
      | obj c f => rw [deep_update_obj_cons] at hup; cases hup
      | map t =>
        obtain ⟨r, rfl⟩ := deep_update_map_shape hup
        cases v0 with
        | map vm =>
          rw [deep_update_cons_map] at hup
          cases h1 : deep_update ((lookup k0 t).getD (.map [])) vm with
          | none => rw [h1] at hup; exact absurd hup (by simp)
          | some m1 =>
            rw [h1] at hup
            have hlook : lookup k0 r = some m1 := by
              rw [deep_update_lookup_frame hup hk0, lookup_setKey_self]
            rw [srcWF_map, Bool.and_eq_true] at hwf0
            have hszm := sizeOf_map_node vm
            have habs : deep_update m1 vm = some m1 :=
              ih vm _ m1 (by omega) hwf0.1 hwf0.2 h1
            rw [deep_update_cons_map, hlook, Option.getD_some, habs]
            show deep_update (Node.map (setKey k0 m1 r)) rest = some (Node.map r)
            rw [setKey_eq_of_lookup hlook]
            exact ih rest _ _ (by omega) hndr hwfr hup
        | obj c f =>
          rw [deep_update_cons_obj] at hup
          have hlook : lookup k0 r = some (.obj c f) := by
            rw [deep_update_lookup_frame hup hk0, lookup_setKey_self]
          rw [deep_update_cons_obj, setKey_eq_of_lookup hlook]
          exact ih rest _ _ (by omega) hndr hwfr hup
        | scalar sc =>
          rw [deep_update_cons_scalar] at hup
          have hlook : lookup k0 r = some (.scalar sc) := by
            rw [deep_update_lookup_frame hup hk0, lookup_setKey_self]
          rw [deep_update_cons_scalar, setKey_eq_of_lookup hlook]
          exact ih rest _ _ (by omega) hndr hwfr hup

theorem srcWF_of_lookup : ∀ {s : Entries} {k : String} {v : Node},
    srcWFEntries s = true → lookup k s = some v → srcWF v = true := by
  intro s
  induction s with
  | nil =>
    intro k v _ hl
    simp [lookup_nil] at hl
  | cons p rest ih =>
    obtain ⟨k0, v0⟩ := p
    intro k v hwf hl
    rw [srcWFEntries_cons, Bool.and_eq_true] at hwf
    rw [lookup_cons] at hl
    by_cases hk : k0 = k
    · rw [if_pos hk] at hl
      cases hl
      exact hwf.1
    · rw [if_neg hk] at hl
      exact ih hwf.2 hl

/-! ### The claims -/

/-- C1: after a successful `deep_update(target, source)` between dicts,
every key of the source is present in the result; at a key present in both
dicts where the source holds a mapping, the result holds the recursive
merge of the old target value with that mapping (not an overwrite); and at
every other source key (non-mapping source value, or key absent from the
target) the result holds exactly the source's value. -/
theorem deep_update_merge_invariant (t s r : Entries)
    (hwf : srcWF (.map s) = true)
    (h : deep_update (.map t) s = some (.map r)) :
    (∀ k ∈ keysOf s, k ∈ keysOf r) ∧
    (∀ (k : String) (vm : Entries), lookup k s = some (.map vm) → k ∈ keysOf t →
      ∃ old r', lookup k t = some old ∧ deep_update old vm = some r' ∧
        lookup k r = some r') ∧
    (∀ (k : String) (v : Node), lookup k s = some v →
      ((∀ vm : Entries, v ≠ .map vm) ∨ k ∉ keysOf t) →
      lookup k r = some v) := by
  rw [srcWF_map, Bool.and_eq_true] at hwf
  have hnd := noDupKeys_iff.mp hwf.1
  refine ⟨?_, ?_, ?_⟩
  · intro k hk
    exact (deep_update_keys h k).mpr (Or.inr hk)
  · intro k vm hl hkt
    obtain ⟨old, hold⟩ := lookup_isSome_of_mem hkt
    obtain ⟨r', hr', hlr⟩ := deep_update_lookup_map_src hnd h hl
    rw [hold, Option.getD_some] at hr'
    exact ⟨old, r', hold, hr', hlr⟩
  · intro k v hl hcond
    rcases hcond with hnm | hkt
    · exact deep_update_lookup_nonmap_src hnd h hl hnm
    · cases v with
      | map vm =>
        obtain ⟨r', hr', hlr⟩ := deep_update_lookup_map_src hnd h hl
        rw [lookup_eq_none_of_not_mem hkt, Option.getD_none,
          deep_update_empty_eq (srcWF_of_lookup hwf.2 hl)] at hr'
        cases hr'
        exact hlr
      | obj c f => exact deep_update_lookup_nonmap_src hnd h hl (by simp)
      | scalar sc => exact deep_update_lookup_nonmap_src hnd h hl (by simp)

theorem deep_update_merge_invariant_witness :
    srcWF (.map [("b", Node.map [("y", Node.scalar (.int 3))]),
      ("c", Node.scalar (.int 4))]) = true ∧
    deep_update (.map [("b", Node.map [("x", Node.scalar (.int 2))])])
      [("b", Node.map [("y", Node.scalar (.int 3))]), ("c", Node.scalar (.int 4))] =
      some (.map [("b", Node.map [("x", Node.scalar (.int 2)),
        ("y", Node.scalar (.int 3))]), ("c", Node.scalar (.int 4))]) ∧
    ((∀ k ∈ keysOf [("b", Node.map [("y", Node.scalar (.int 3))]),
        ("c", Node.scalar (.int 4))],
      k ∈ keysOf [("b", Node.map [("x", Node.scalar (.int 2)),
        ("y", Node.scalar (.int 3))]), ("c", Node.scalar (.int 4))]) ∧
    (∀ (k : String) (vm : Entries),
      lookup k [("b", Node.map [("y", Node.scalar (.int 3))]),
        ("c", Node.scalar (.int 4))] = some (.map vm) →
      k ∈ keysOf [("b", Node.map [("x", Node.scalar (.int 2))])] →
      ∃ old r', lookup k [("b", Node.map [("x", Node.scalar (.int 2))])] = some old ∧
        deep_update old vm = some r' ∧
        lookup k [("b", Node.map [("x", Node.scalar (.int 2)),
          ("y", Node.scalar (.int 3))]), ("c", Node.scalar (.int 4))] = some r') ∧
    (∀ (k : String) (v : Node),
      lookup k [("b", Node.map [("y", Node.scalar (.int 3))]),
        ("c", Node.scalar (.int 4))] = some v →
      ((∀ vm : Entries, v ≠ .map vm) ∨
        k ∉ keysOf [("b", Node.map [("x", Node.scalar (.int 2))])]) →
      lookup k [("b", Node.map [("x", Node.scalar (.int 2)),
        ("y", Node.scalar (.int 3))]), ("c", Node.scalar (.int 4))] = some v)) := by
  have h1 : srcWF (.map [("b", Node.map [("y", Node.scalar (.int 3))]),
      ("c", Node.scalar (.int 4))]) = true := by
    simp [srcWF, srcWFEntries, noDupKeys, keysOf]
  have h2 : deep_update (.map [("b", Node.map [("x", Node.scalar (.int 2))])])
      [("b", Node.map [("y", Node.scalar (.int 3))]), ("c", Node.scalar (.int 4))] =
      some (.map [("b", Node.map [("x", Node.scalar (.int 2)),
        ("y", Node.scalar (.int 3))]), ("c", Node.scalar (.int 4))]) := by
    simp [deep_update, dGet, dSet, lookup, setKey]
  exact ⟨h1, h2, deep_update_merge_invariant _ _ _ h1 h2⟩

/-- C2 (counterexample): the claim fails on the code as stated — at the
scalar leaf `float('nan')`, `deep_comp(X, X)` returns `False`: neither
side has a `__dict__`, neither is a dict, so the comparison falls through
to `nan == nan`, which is `False` in Python. -/
theorem deep_comp_reflexive_cex :
    deep_comp (Node.scalar (.float .nan)) (Node.scalar (.float .nan)) = false := by
  rw [deep_comp_scalar_scalar, pyEq_scalar]
  rfl

/-- C2 (amended): `deep_comp(X, X)` is true for every Node X — nested
mapping, field-bearing object or scalar — none of whose scalar leaves is
the float NaN. -/
theorem deep_comp_reflexive (X : Node) (hn : noNaN X = true) :
    deep_comp X X = true :=
  deep_comp_refl X hn

theorem deep_comp_reflexive_witness :
    noNaN (Node.map [("a", Node.scalar (.int 1)),
      ("o", Node.obj "C" [("f", Node.scalar (.str "s"))])]) = true ∧
    deep_comp
      (Node.map [("a", Node.scalar (.int 1)),
        ("o", Node.obj "C" [("f", Node.scalar (.str "s"))])])
      (Node.map [("a", Node.scalar (.int 1)),
        ("o", Node.obj "C" [("f", Node.scalar (.str "s"))])]) = true := by
  have h1 : noNaN (Node.map [("a", Node.scalar (.int 1)),
      ("o", Node.obj "C" [("f", Node.scalar (.str "s"))])]) = true := by
    simp [noNaN, noNaNEntries, Scalar.isNaN]
  exact ⟨h1, deep_comp_reflexive _ h1⟩

/-- C3 (counterexample): the claim fails on the code as stated — for
`S = {'a': float('nan')}`, `deep_update({}, S)` succeeds (returning a
structure with the same NaN leaf), but `deep_comp` of the result with `S`
is `False`, because the per-key comparison bottoms out in `nan == nan`. -/
theorem identity_merge_deep_copy_cex :
    deep_update (.map []) [("a", Node.scalar (.float .nan))] =
      some (.map [("a", Node.scalar (.float .nan))]) ∧
    deep_comp (.map [("a", Node.scalar (.float .nan))])
      (.map [("a", Node.scalar (.float .nan))]) = false := by
  constructor
  · simp [deep_update, dGet, dSet, lookup, setKey]
  · simp [deep_comp, compKeys, unionKeys, dedupKeys, keysOf, lookup, pyEq,
      Scalar.eqPy, Scalar.numVal, numEq]

/-- C3 (amended): `deep_update({}, S)` succeeds on every well-formed
nested mapping `S` with no NaN leaf and produces a structure
deep-comp-equal to `S`. -/
theorem identity_merge_deep_copy (s : Entries) (hwf : srcWF (.map s) = true)
    (hn : noNaN (.map s) = true) :
    ∃ r : Node, deep_update (.map []) s = some r ∧ deep_comp r (.map s) = true :=
  ⟨.map s, deep_update_empty_eq hwf, deep_comp_refl _ hn⟩

theorem identity_merge_deep_copy_witness :
    srcWF (.map [("a", Node.map [("b", Node.scalar (.int 1))])]) = true ∧
    noNaN (.map [("a", Node.map [("b", Node.scalar (.int 1))])]) = true ∧
    ∃ r : Node,
      deep_update (.map []) [("a", Node.map [("b", Node.scalar (.int 1))])] = some r ∧
      deep_comp r (.map [("a", Node.map [("b", Node.scalar (.int 1))])]) = true := by
  have h1 : srcWF (.map [("a", Node.map [("b", Node.scalar (.int 1))])]) = true := by
    simp [srcWF, srcWFEntries, noDupKeys, keysOf]
  have h2 : noNaN (.map [("a", Node.map [("b", Node.scalar (.int 1))])]) = true := by
    simp [noNaN, noNaNEntries, Scalar.isNaN]
  exact ⟨h1, h2, identity_merge_deep_copy _ h1 h2⟩

/-- C4: merging the same well-formed source twice gives the same structure
as merging it once: if `deep_update(T, S)` returns `r`, then
`deep_update(r, S)` returns `r` again. -/
theorem deep_update_idempotent (t s : Entries) (r : Node)
    (hwf : srcWF (.map s) = true)
    (h : deep_update (.map t) s = some r) :
    deep_update r s = some r := by
  rw [srcWF_map, Bool.and_eq_true] at hwf
  exact deep_update_absorb (sizeOf s) s (.map t) r le_rfl hwf.1 hwf.2 h

theorem deep_update_idempotent_witness :
    srcWF (.map [("a", Node.scalar (.int 2)),
      ("m", Node.map [("k", Node.scalar (.int 5))])]) = true ∧
    deep_update (.map [("a", Node.scalar (.int 1))])
      [("a", Node.scalar (.int 2)), ("m", Node.map [("k", Node.scalar (.int 5))])] =
      some (.map [("a", Node.scalar (.int 2)),
        ("m", Node.map [("k", Node.scalar (.int 5))])]) ∧
    deep_update (.map [("a", Node.scalar (.int 2)),
        ("m", Node.map [("k", Node.scalar (.int 5))])])
      [("a", Node.scalar (.int 2)), ("m", Node.map [("k", Node.scalar (.int 5))])] =
      some (.map [("a", Node.scalar (.int 2)),
        ("m", Node.map [("k", Node.scalar (.int 5))])]) := by
  have h1 : srcWF (.map [("a", Node.scalar (.int 2)),
      ("m", Node.map [("k", Node.scalar (.int 5))])]) = true := by
    simp [srcWF, srcWFEntries, noDupKeys, keysOf]
  have h2 : deep_update (.map [("a", Node.scalar (.int 1))])
      [("a", Node.scalar (.int 2)), ("m", Node.map [("k", Node.scalar (.int 5))])] =
      some (.map [("a", Node.scalar (.int 2)),
        ("m", Node.map [("k", Node.scalar (.int 5))])]) := by
    simp [deep_update, dGet, dSet, lookup, setKey]
  exact ⟨h1, h2, deep_update_idempotent _ _ _ h1 h2⟩

/-- C5: the spec's concrete scenario,
`deep_update({'x':1,'y':{'p':1}}, {'y':{'q':2},'z':3})
  = {'x':1, 'y':{'p':1,'q':2}, 'z':3}`. -/
theorem deep_update_scenario :
    deep_update (.map [("x", Node.scalar (.int 1)),
        ("y", Node.map [("p", Node.scalar (.int 1))])])
      [("y", Node.map [("q", Node.scalar (.int 2))]), ("z", Node.scalar (.int 3))] =
      some (.map [("x", Node.scalar (.int 1)),
        ("y", Node.map [("p", Node.scalar (.int 1)), ("q", Node.scalar (.int 2))]),
        ("z", Node.scalar (.int 3))]) := by
  simp [deep_update, dGet, dSet, lookup, setKey]

/-- C7: when exactly one of the two compared values exposes an attribute
mapping, no unwrapping happens and `deep_comp` returns exactly the direct
Python equality `a == b` between the object and the non-object. -/
theorem deep_comp_single_obj_fallthrough (a b : Node) (h : isObj a ≠ isObj b) :
    deep_comp a b = pyEq a b := by
  cases a with
  | map m =>
    cases b with
    | map m2 => exact absurd rfl h
    | obj c f => exact deep_comp_map_obj c m f
    | scalar s => exact absurd rfl h
  | obj c f =>
    cases b with
    | map m => exact deep_comp_obj_map c f m
    | obj c2 f2 => exact absurd rfl h
    | scalar s => exact deep_comp_obj_scalar c f s
  | scalar s =>
    cases b with
    | map m => exact absurd rfl h
    | obj c f => exact deep_comp_scalar_obj s c f
    | scalar t => exact absurd rfl h

theorem deep_comp_single_obj_fallthrough_witness :
    isObj (Node.obj "A" [("f", Node.scalar (.int 1))]) ≠ isObj (Node.scalar (.int 1)) ∧
    deep_comp (Node.obj "A" [("f", Node.scalar (.int 1))]) (Node.scalar (.int 1)) =
      pyEq (Node.obj "A" [("f", Node.scalar (.int 1))]) (Node.scalar (.int 1)) :=
  ⟨by decide, deep_comp_single_obj_fallthrough _ _ (by decide)⟩

/-- C8: the deep comparison is symmetric: `deep_comp(a, b)` and
`deep_comp(b, a)` return the same boolean for all nodes; the both-sides
unwrapping rule does not break symmetry. -/
theorem deep_comp_symmetric (a b : Node) : deep_comp a b = deep_comp b a :=
  deep_comp_symm a b

/-- C9: `deep_update` never removes keys: every key of the target before
the call is still a key of the result. -/
theorem deep_update_never_removes_keys (t s r : Entries) (k : String)
    (h : deep_update (.map t) s = some (.map r)) (hk : hasKey k t = true) :
    hasKey k r = true := by
  rw [hasKey_iff_mem] at hk ⊢
  exact (deep_update_keys h k).mpr (Or.inl hk)

theorem deep_update_never_removes_keys_witness :
    deep_update (.map [("a", Node.scalar (.int 1))]) [("b", Node.scalar (.int 2))] =
      some (.map [("a", Node.scalar (.int 1)), ("b", Node.scalar (.int 2))]) ∧
    hasKey "a" [("a", Node.scalar (.int 1))] = true ∧
    hasKey "a" [("a", Node.scalar (.int 1)), ("b", Node.scalar (.int 2))] = true := by
  have h1 : deep_update (.map [("a", Node.scalar (.int 1))])
      [("b", Node.scalar (.int 2))] =
      some (.map [("a", Node.scalar (.int 1)), ("b", Node.scalar (.int 2))]) := by
    simp [deep_update, dGet, dSet, lookup, setKey]
  exact ⟨h1, by decide, deep_update_never_removes_keys _ _ _ "a" h1 (by decide)⟩

/-- C10: after unwrapping, the object's class plays no role: two
field-bearing objects of any (possibly different) classes compare
deep-comp-equal whenever their attribute mappings do. -/
theorem deep_comp_obj_ignores_class (c1 c2 : String) (f1 f2 : Entries)
    (h : deep_comp (.map f1) (.map f2) = true) :
    deep_comp (.obj c1 f1) (.obj c2 f2) = true := by
  rw [deep_comp_obj_obj]
  rw [deep_comp_map_map] at h
  exact h

theorem deep_comp_obj_ignores_class_witness :
    deep_comp (Node.map [("x", Node.scalar (.int 1))])
      (Node.map [("x", Node.scalar (.int 1))]) = true ∧
    deep_comp (Node.obj "A" [("x", Node.scalar (.int 1))])
      (Node.obj "B" [("x", Node.scalar (.int 1))]) = true := by
  have h : deep_comp (Node.map [("x", Node.scalar (.int 1))])
      (Node.map [("x", Node.scalar (.int 1))]) = true :=
    deep_comp_refl _ (by simp [noNaN, noNaNEntries, Scalar.isNaN])
  exact ⟨h, deep_comp_obj_ignores_class "A" "B" _ _ h⟩

end ArchaiUtils
